import Mathlib

/-!
Shallow embedding of `tebreak/tebreak.py` (retrosplit) and proofs about it.

Conventions used throughout:
* Python `int` is modelled as `ℤ` (or `ℕ` where the source value is a count
  or a reference coordinate that is always non-negative).
* Python floats that only ever hold exact small rationals are modelled as `ℚ`.
* A Python function that can raise (assertion failure, `IndexError`,
  `max()` of an empty list, nontermination) is modelled as returning
  `Option _`, with `none` standing for the raised exception / divergence.
* `list.sort()` / `sorted()` are Python's stable ascending sort driven by the
  `__gt__` method of the elements (Python evaluates `a < b` as `b.__gt__(a)`
  when `__lt__` is absent, which is the case for the classes embedded here);
  they are modelled by the stable insertion sort `pysort` below,
  parameterised by the strict "comes before" test.
-/

namespace Tebreak

/-- One step of stable insertion sort: insert `x` after every element `y`
with `lt x y = false`.  Later-inserted elements therefore end up after
equal elements, which is exactly the stability guarantee of Python's sort. -/
def insertS {α : Type} (lt : α → α → Bool) (x : α) : List α → List α
  | [] => [x]
  | y :: ys => if lt x y then x :: y :: ys else y :: insertS lt x ys

/-- Stable ascending sort modelling Python `list.sort()` / `sorted(...)`,
with `lt a b = true` meaning "`a` must come strictly before `b`". -/
def pysort {α : Type} (lt : α → α → Bool) (l : List α) : List α :=
  l.foldl (fun acc y => insertS lt y acc) []

/-- `int(np.median(...))` on a list of non-negative integers: sort, take the
middle element (odd length) or the truncated mean of the two middle elements
(even length).  `int()` truncates toward zero, which on the non-negative
halves produced here is the floor, i.e. natural division by 2. -/
def npMedianInt (l : List ℕ) : ℤ :=
  let s := pysort (fun a b => decide (a < b)) l
  let n := s.length
  if n % 2 = 1 then (s.getD (n / 2) 0 : ℤ)
  else (((s.getD (n / 2 - 1) 0) + s.getD (n / 2) 0) / 2 : ℕ)

/-- Sum of the 4-element quality window starting at `i`
(`np.mean(q[i:i+4]) < 5` is `windowSum q i < 20` whenever the slice has its
full 4 elements, which is the case for every index the source examines). -/
def windowSum (q : List ℤ) (i : ℕ) : ℤ :=
  ((q.drop i).take 4).sum

/-- `[ord(b) - minqual for b in read.qual]` from `qualtrim`. -/
def qvals (qual : String) (minqual : ℤ) : List ℤ :=
  qual.data.map (fun c => (c.toNat : ℤ) - minqual)

/-- The scan loop of `qualtrim`: `k` counts the remaining iterations
(Python iterates `i` over `range(0, len(q)-4)`), `i` is the current index. -/
def qtGo (s : String) (q : List ℤ) : ℕ → ℕ → String
  | 0, _ => s
  | k + 1, i => if windowSum q i < 20 then ⟨s.data.take i⟩ else qtGo s q k (i + 1)

/-- `qualtrim(read, minqual)` from the source: `q = [ord(b)-minqual for b in
read.qual]`; for `i in range(0, len(q)-4)`: if `np.mean(q[i:i+4]) < 5`,
return `read.seq[:i]`; otherwise return `read.seq` unchanged. -/
def qualtrim (seq qual : String) (minqual : ℤ) : String :=
  let q := qvals qual minqual
  qtGo seq q (q.length - 4) 0

/-! #### `SplitCluster.consensus`, early-return fragment (C3) -/

/-- The slice of a clustered split read used by `SplitCluster.consensus`:
`tid` and `seqstart = reference_start - query_alignment_start` drive the
`SortableRead` ordering, `seq`/`qual` feed `qualtrim`, and `minqual` is the
`SplitRead.minqual` field (the source reads it off `self.reads[0]`). -/
structure ConsRead where
  tid : ℕ
  seqstart : ℤ
  seq : String
  qual : String
  minqual : ℤ
deriving DecidableEq, Repr

/-- `SortableRead.__gt__`: same `tid` compares `seqstart`, otherwise `tid`;
`ltSortable a b` decides whether `a` sorts strictly before `b`. -/
def ltSortable (a b : ConsRead) : Bool :=
  if a.tid = b.tid then decide (a.seqstart < b.seqstart) else decide (a.tid < b.tid)

/-- First lines of `consensus`: sort the reads as `SortableRead`s,
quality-trim each sequence, keep those with `len(s) > 20`. -/
def trimmedKept (reads : List ConsRead) (minqual : ℤ) : List String :=
  ((pysort ltSortable reads).map (fun r => qualtrim r.seq r.qual minqual)).filter
    (fun s => decide (20 < s.length))

/-- Tail of the adjacent-deduplication loop: `if seq != seqs[i-1]: append`. -/
def dedupAdjGo (prev : String) : List String → List String
  | [] => []
  | s :: rest => if s = prev then dedupAdjGo s rest else s :: dedupAdjGo s rest

/-- `uniq_seqs`: drop elements equal to their immediate predecessor. -/
def dedupAdj : List String → List String
  | [] => []
  | s :: rest => s :: dedupAdjGo s rest

/-- `SplitCluster.consensus`, embedded up to (and excluding) its iterative
extension phase.  The iterative phase locally aligns candidate sequences with
scikit-bio's SSW aligner (an external library) and is not embedded; entering
it is modelled as `none`.  An empty read list raises `IndexError` on
`self.reads[0].minqual` (`none`).  All early returns of the source are
modelled exactly: no kept sequence gives `('', 0.0)`, a single kept sequence
gives `(seq, 1.0)`, and a single adjacent-deduplicated sequence gives
`(seq, 1.0)`. -/
def consensusEarly (reads : List ConsRead) : Option (String × ℚ) :=
  match reads with
  | [] => none
  | r0 :: _ =>
    match trimmedKept reads r0.minqual with
    | [] => some ("", 0)
    | [s] => some (s, 1)
    | s :: t :: ts =>
      match dedupAdj (s :: t :: ts) with
      | [u] => some (u, 1)
      | _ => none

/-! #### `Genome` (C1, C9) -/

/-- The `Genome.chrlen` dict, kept as its (key, value) items in insertion
order.  Python dict lookup with later duplicate keys overwriting earlier
ones: the last binding wins. -/
def lookupChrom (chrlen : List (String × ℕ)) (c : String) : Option ℕ :=
  (chrlen.reverse.find? (fun p => p.1 == c)).map (·.2)

/-- `Genome.addpad`: widen the interval by `pad` on both sides, `assert
chrom in self.chrlen` (`none` on failure), clamp the start below at 0 and
the end above at the chromosome length. -/
def addpad (chrlen : List (String × ℕ)) (iv : String × ℤ × ℤ) (pad : ℤ) :
    Option (String × ℤ × ℤ) :=
  let start := iv.2.1 - pad
  let e := iv.2.2 + pad
  match lookupChrom chrlen iv.1 with
  | none => none
  | some L =>
      some (iv.1, if start < 0 then 0 else start, if e > (L : ℤ) then (L : ℤ) else e)

/-- The inner `while lenleft > 0` loop of `Genome.chunk`.  `fuel` bounds the
number of iterations: with `chunklen = 0` the Python loop re-emits an empty
interval forever, which exhausts the fuel and yields `none` (the callers
below pass `length + 1` fuel, enough for every terminating run).  The state
threaded through is `(lenleft, chunkleft, chunks, intervals)`. -/
def chunkWhile (chrlen : List (String × ℕ)) (pad : ℤ) (chunklen : ℕ)
    (chrom : String) (length : ℕ) :
    (fuel lenleft chunkleft : ℕ) → List (List (String × ℤ × ℤ)) →
    List (String × ℤ × ℤ) →
    Option (ℕ × List (List (String × ℤ × ℤ)) × List (String × ℤ × ℤ))
  | fuel, lenleft, chunkleft, chunks, intervals =>
    if lenleft = 0 then some (chunkleft, chunks, intervals)
    else
      match fuel with
      | 0 => none
      | fuel + 1 =>
        if chunkleft ≤ lenleft then
          match addpad chrlen
              (chrom, ((length - lenleft : ℕ) : ℤ),
                (((length - lenleft) + chunkleft : ℕ) : ℤ)) pad with
          | none => none
          | some iv =>
            chunkWhile chrlen pad chunklen chrom length fuel (lenleft - chunkleft)
              chunklen (chunks ++ [intervals ++ [iv]]) []
        else
          match addpad chrlen (chrom, ((length - lenleft : ℕ) : ℤ), (length : ℤ)) pad with
          | none => none
          | some iv => some (chunkleft - lenleft, chunks, intervals ++ [iv])

/-- The body of `for chrom in chromlist` inside `Genome.chunk`: either the
whole chromosome fits in the open chunk (closing it when it fills exactly),
or the chromosome is split across chunks by the inner while loop. -/
def chunkChrom (chrlen : List (String × ℕ)) (pad : ℤ) (chunklen : ℕ)
    (st : ℕ × List (List (String × ℤ × ℤ)) × List (String × ℤ × ℤ))
    (chrom : String) (length : ℕ) :
    Option (ℕ × List (List (String × ℤ × ℤ)) × List (String × ℤ × ℤ)) :=
  let (chunkleft, chunks, intervals) := st
  if length ≤ chunkleft then
    match addpad chrlen (chrom, 0, (length : ℤ)) pad with
    | none => none
    | some iv =>
      let chunkleft' := chunkleft - length
      let intervals' := intervals ++ [iv]
      if chunkleft' = 0 then some (chunklen, chunks ++ [intervals'], [])
      else some (chunkleft', chunks, intervals')
  else
    chunkWhile chrlen pad chunklen chrom length (length + 1) length chunkleft
      chunks intervals

/-- Fold of `chunkChrom` over the chromosome list. -/
def chunkFold (chrlen : List (String × ℕ)) (pad : ℤ) (chunklen : ℕ) :
    List (String × ℕ) →
    (ℕ × List (List (String × ℤ × ℤ)) × List (String × ℤ × ℤ)) →
    Option (ℕ × List (List (String × ℤ × ℤ)) × List (String × ℤ × ℤ))
  | [], st => some st
  | (chrom, length) :: rest, st =>
    match chunkChrom chrlen pad chunklen st chrom length with
    | none => none
    | some st' => chunkFold chrlen pad chunklen rest st'

/-- `Genome.chunk(n, seed, sorted, pad, flatten=False)`.  `chunklen =
int(self.bp/n)` (`none` on `n = 0`, Python's `ZeroDivisionError`);
`random.seed(seed)` is called but `random` is never used inside `chunk` and
is omitted; `sorted=True` sorts the chromosome visitation order.  Note the
returned value is `chunks` only: intervals accumulated after the last chunk
filled (`intervals` of the final state) are never appended to `chunks`. -/
def chunkGenome (chrlen : List (String × ℕ)) (n : ℕ) (srt : Bool) (pad : ℤ) :
    Option (List (List (String × ℤ × ℤ))) :=
  if n = 0 then none
  else
    let bp := (chrlen.map (·.2)).sum
    let chunklen := bp / n
    let chromlist := if srt then pysort (fun a b => decide (a.1 < b.1)) chrlen else chrlen
    match chunkFold chrlen pad chunklen chromlist (chunklen, [], []) with
    | none => none
    | some (_, chunks, _) => some chunks

/-- `Genome.chunk(..., flatten=True)` (the default): flatten the chunk lists. -/
def chunkGenomeFlat (chrlen : List (String × ℕ)) (n : ℕ) (srt : Bool) (pad : ℤ) :
    Option (List (String × ℤ × ℤ)) :=
  (chunkGenome chrlen n srt pad).map List.flatten

/-- Whether some interval of `ivs` covers base `b` of chromosome `c`
(intervals are half-open `(chrom, start, end)`). -/
def coversBase (ivs : List (String × ℤ × ℤ)) (c : String) (b : ℤ) : Bool :=
  ivs.any (fun iv => iv.1 == c && decide (iv.2.1 ≤ b) && decide (b < iv.2.2))

/-! #### `ReadCluster.add_read` (C8) -/

/-- The fields of a clustered read used by `ReadCluster.add_read`:
its chromosome and its `read.positions` (aligned reference positions). -/
structure RRead where
  chrom : String
  positions : List ℕ
deriving DecidableEq, Repr

/-- `ReadCluster` state: member reads, running statistics, chromosome
(`None` until the first read arrives).  `end` is a Lean keyword, hence
`end_`. -/
structure ReadClusterS where
  reads : List RRead
  start : ℤ
  end_ : ℤ
  median : ℤ
  chrom : Option String
deriving DecidableEq, Repr

/-- `ReadCluster.__init__()` with no first read. -/
def emptyReadCluster : ReadClusterS := ⟨[], 0, 0, 0, none⟩

/-- `ReadCluster.add_read`: append the read; adopt its chromosome when the
cluster had none; `assert self.chrom == r.chrom` (`none` models the
assertion failure); pool the aligned positions of all member reads and
recompute the statistics exactly as the source does: `self.start =
max(positions)`, `self.end = min(positions)` (maximum into `start`, minimum
into `end`, as written in the source), `self.median =
int(np.median(positions))`.  `max()`/`min()` on an empty pool raise
(`none`).  The `self.reads.sort()` call permutes only the stored read list
and none of the recomputed fields; the permutation itself is irrelevant to
every later use through `ReadCluster` and is omitted. -/
def add_read (c : ReadClusterS) (r : RRead) : Option ReadClusterS :=
  let reads' := c.reads ++ [r]
  let chrom' := c.chrom.getD r.chrom
  if chrom' ≠ r.chrom then none
  else
    match reads'.flatMap (fun rr => rr.positions) with
    | [] => none
    | p :: ps =>
      some { reads := reads',
             start := ((p :: ps).foldl max p : ℕ),
             end_ := ((p :: ps).foldl min p : ℕ),
             median := npMedianInt (p :: ps),
             chrom := some chrom' }

/-! #### `Insertion.__init__` and breakends (C7, C2) -/

/-- The fields of a `BreakEnd` used by insertion pairing: its (unique) id,
chromosome, breakpoint position, clip direction (`"left"`/`"right"`), and
the size of its supporting cluster (`len(be)`). -/
structure BreakEnd where
  uuid : ℕ
  chrom : String
  breakpos : ℤ
  direction : String
  clusterLen : ℕ
deriving DecidableEq, Repr

/-- An `Insertion`'s two optional breakends (the only `__init__` fields the
pairing claims are about). -/
structure Insertion where
  be1 : Option BreakEnd
  be2 : Option BreakEnd
deriving DecidableEq, Repr

/-- `Insertion.__init__(be1, be2)`: store the breakends; when both are
present and `be1.breakpos > be2.breakpos`, swap them to keep the breakends
in position order. -/
def mkInsertion (b1 b2 : Option BreakEnd) : Insertion :=
  match b1, b2 with
  | some x, some y =>
      if x.breakpos > y.breakpos then ⟨some y, some x⟩ else ⟨some x, some y⟩
  | _, _ => ⟨b1, b2⟩

/-! #### `build_insertions` (C2) -/

/-- `be_dict = dict([(be.uuid, be) for be in breakends])`: Python dict
lookup, later duplicate keys overwriting earlier ones (last binding wins). -/
def beDictGet (breakends : List BreakEnd) (u : ℕ) : Option BreakEnd :=
  breakends.reverse.find? (fun be => be.uuid == u)

/-- The interval-tree query of `build_insertions`: each breakend is indexed
under the window `(breakpos - maxdist, breakpos + maxdist)` and
`be_itree.find(p, p+1)` returns the windows overlapping `[p, p+1)` — those
with `start < p + 1` and `end > p` — whose values are the breakends'
uuids.  The bx-python tree returns them in an unspecified order; list order
is used (the properties proved below do not depend on the order). -/
def itreeHits (breakends : List BreakEnd) (maxdist p : ℤ) : List ℕ :=
  (breakends.filter (fun be =>
    decide (be.breakpos - maxdist < p + 1) && decide (p < be.breakpos + maxdist))).map
    (fun be => be.uuid)

/-- The inner `for be2_coords in be_itree.find(...)` loop of
`build_insertions`, threading `(checked_pairs, pair_scores)`.  The
`checked_pairs` key is the unordered uuid pair (the source joins the two
uuid strings in sorted order, which is injective on unordered pairs).  A
uuid returned by the tree is always a key of `be_dict`, so the `KeyError`
branch (`beDictGet _ = none`, which stops the loop here) is unreachable. -/
def genPairsInner (score : BreakEnd → BreakEnd → Option ℚ)
    (breakends : List BreakEnd) (maxdist : ℤ) (be1 : BreakEnd) :
    List ℕ → List (ℕ × ℕ) → List (ℕ × ℕ × Option ℚ) →
    List (ℕ × ℕ) × List (ℕ × ℕ × Option ℚ)
  | [], checked, pairs => (checked, pairs)
  | u2 :: rest, checked, pairs =>
    match beDictGet breakends u2 with
    | none => (checked, pairs)
    | some be2 =>
      let key := (min be1.uuid be2.uuid, max be1.uuid be2.uuid)
      let pairs' :=
        if be1.uuid ≠ be2.uuid ∧ be1.direction ≠ be2.direction ∧ key ∉ checked then
          if |be1.breakpos - be2.breakpos| ≤ maxdist then
            pairs ++ [(be1.uuid, be2.uuid, score be1 be2)]
          else pairs
        else pairs
      genPairsInner score breakends maxdist be1 rest (checked ++ [key]) pairs'

/-- The outer `for be1 in breakends` loop building `pair_scores`. -/
def genPairsOuter (score : BreakEnd → BreakEnd → Option ℚ)
    (breakends : List BreakEnd) (maxdist : ℤ) :
    List BreakEnd → List (ℕ × ℕ) → List (ℕ × ℕ × Option ℚ) →
    List (ℕ × ℕ × Option ℚ)
  | [], _, pairs => pairs
  | be1 :: rest, checked, pairs =>
    let st := genPairsInner score breakends maxdist be1
      (itreeHits breakends maxdist be1.breakpos) checked pairs
    genPairsOuter score breakends maxdist rest st.1 st.2

/-- `pair_scores` after dropping entries whose score is `None` and sorting
by score descending (Python's stable `sort(key=itemgetter(2),
reverse=True)`, which keeps the original order of equal scores). -/
def sortedPairScores (score : BreakEnd → BreakEnd → Option ℚ)
    (breakends : List BreakEnd) (maxdist : ℤ) : List (ℕ × ℕ × ℚ) :=
  pysort (fun a b => decide (b.2.2 < a.2.2))
    ((genPairsOuter score breakends maxdist breakends [] []).filterMap
      (fun t => match t.2.2 with
        | none => none
        | some q => some (t.1, t.2.1, q)))

/-- The greedy matching loop: accept a pair when both uuids are unused,
marking both as used. -/
def greedyPick : List (ℕ × ℕ × ℚ) → List ℕ → List (ℕ × ℕ) × List ℕ
  | [], used => ([], used)
  | (u1, u2, _) :: ps, used =>
    if u1 ∉ used ∧ u2 ∉ used then
      let r := greedyPick ps (used ++ [u1, u2])
      ((u1, u2) :: r.1, r.2)
    else greedyPick ps used

/-- The single-end loop: every breakend still unused becomes a one-sided
insertion (and is marked used). -/
def singlesGo : List BreakEnd → List ℕ → List Insertion × List ℕ
  | [], used => ([], used)
  | be :: bes, used =>
    if be.uuid ∉ used then
      let r := singlesGo bes (used ++ [be.uuid])
      (mkInsertion (some be) none :: r.1, r.2)
    else singlesGo bes used

/-- `build_insertions(breakends, maxdist=100)`.  `score_breakend_pair`
weighs the proximal-subread overlap by a Gamma(2.5, 3.0) density over
floats and returns `None` when either breakend lacks a proximal
sub-alignment; the claims proved about `build_insertions` hold for *every*
scoring function, so the score is taken as a parameter (`none` standing for
`None`).  Accepted pairs become two-sided insertions through `be_dict`
lookups (a failed lookup, impossible for uuids drawn from the pair list, is
skipped). -/
def build_insertions (score : BreakEnd → BreakEnd → Option ℚ)
    (breakends : List BreakEnd) (maxdist : ℤ) : List Insertion :=
  let st := greedyPick (sortedPairScores score breakends maxdist) []
  let pairIns := st.1.filterMap (fun pr =>
    match beDictGet breakends pr.1, beDictGet breakends pr.2 with
    | some b1, some b2 => some (mkInsertion (some b1) (some b2))
    | _, _ => none)
  pairIns ++ (singlesGo breakends st.2).1

/-- Whether an insertion uses the breakend with uuid `u`. -/
def insHasUuid (ins : Insertion) (u : ℕ) : Bool :=
  (match ins.be1 with | some b => b.uuid == u | none => false) ||
  (match ins.be2 with | some b => b.uuid == u | none => false)

/-! #### Split reads and `build_sr_clusters` (C4) -/

/-- The pysam read fields used by `SplitRead.__init__` and the cluster
statistics: query-alignment bounds, read length, and the aligned reference
positions (`get_reference_positions()`, ascending). -/
structure PyRead where
  qstart : ℕ
  qend : ℕ
  rlen : ℕ
  positions : List ℕ
deriving DecidableEq, Repr

/-- A split read: chromosome, the wrapped read, the derived breakpoint and
clip direction. -/
structure SplitRead where
  chrom : String
  read : PyRead
  breakpos : ℕ
  breakleft : Bool
  breakright : Bool
deriving DecidableEq, Repr

/-- `SplitRead.__init__(chrom, read, ...)`: `read.qstart < read.rlen -
read.qend` (computed over Python ints, hence `ℤ` here) puts the break on
the right, with breakpoint `get_reference_positions()[-1]`; otherwise the
break is on the left at `get_reference_positions()[0]` (`none` models the
`IndexError` on a read with no aligned positions). -/
def mkSplitRead (chrom : String) (r : PyRead) : Option SplitRead :=
  if (r.qstart : ℤ) < (r.rlen : ℤ) - (r.qend : ℤ) then
    match r.positions.getLast? with
    | none => none
    | some p => some ⟨chrom, r, p, false, true⟩
  else
    match r.positions.head? with
    | none => none
    | some p => some ⟨chrom, r, p, true, false⟩

/-- `SplitRead.__gt__` sorts by `(chrom, breakpos)`; `ltSplitRead a b`
decides whether `a` sorts strictly before `b`. -/
def ltSplitRead (a b : SplitRead) : Bool :=
  if a.chrom = b.chrom then decide (a.breakpos < b.breakpos)
  else decide (a.chrom < b.chrom)

/-- `SplitCluster` state (the fields `build_sr_clusters` touches). -/
structure SplitCluster where
  reads : List SplitRead
  start : ℤ
  end_ : ℤ
  median : ℤ
  chrom : Option String
deriving DecidableEq, Repr

/-- `SplitCluster(sr)`: `ReadCluster.__init__` with a first read runs
`add_read`, which pools the read's aligned positions and sets
`start = max(positions)`, `end = min(positions)`,
`median = int(np.median(positions))` (`none` when the read has no aligned
positions, where Python's `max()` raises). -/
def newSplitCluster (sr : SplitRead) : Option SplitCluster :=
  match sr.read.positions with
  | [] => none
  | p :: ps =>
    some ⟨[sr], ((p :: ps).foldl max p : ℕ), ((p :: ps).foldl min p : ℕ),
      npMedianInt (p :: ps), some sr.chrom⟩

/-- `SplitCluster.add_splitread(sr)`: append the read, `assert self.chrom
== sr.chrom` (`none` on failure), re-sort by `(chrom, breakpos)` and set
`start = reads[0].breakpos`, `end = reads[-1].breakpos`,
`median = reads[int(len(self)/2)].breakpos`.  The sorted list is nonempty,
so the `headD`/`getLastD`/`getD` defaults are never consulted. -/
def add_splitread (c : SplitCluster) (sr : SplitRead) : Option SplitCluster :=
  let chrom' := c.chrom.getD sr.chrom
  if chrom' ≠ sr.chrom then none
  else
    let sorted := pysort ltSplitRead (c.reads ++ [sr])
    some ⟨sorted, ((sorted.headD sr).breakpos : ℕ),
      ((sorted.getLastD sr).breakpos : ℕ),
      ((sorted.getD (sorted.length / 2) sr).breakpos : ℕ), some chrom'⟩

/-- The loop of `build_sr_clusters`, carrying the finished clusters and the
current cluster (`clusters[-1]` of the source) separately: a new cluster is
started when the chromosome changes or the read's breakpoint is more than
`d` from the running median; otherwise the read joins the current
cluster. -/
def bsrGo (d : ℤ) : List SplitRead → List SplitCluster → SplitCluster →
    Option (List SplitCluster)
  | [], done, cur => some (done ++ [cur])
  | sr :: rest, done, cur =>
    if cur.chrom ≠ some sr.chrom then
      match newSplitCluster sr with
      | none => none
      | some c0 => bsrGo d rest (done ++ [cur]) c0
    else if |cur.median - (sr.breakpos : ℤ)| > d then
      match newSplitCluster sr with
      | none => none
      | some c0 => bsrGo d rest (done ++ [cur]) c0
    else
      match add_splitread cur sr with
      | none => none
      | some c' => bsrGo d rest done c'

/-- `build_sr_clusters(splitreads, searchdist=100)`. -/
def build_sr_clusters (splitreads : List SplitRead) (d : ℤ) :
    Option (List SplitCluster) :=
  match splitreads with
  | [] => some []
  | sr :: rest =>
    match newSplitCluster sr with
    | none => none
    | some c0 => bsrGo d rest [] c0

/-- The `(chromosome, breakpoint)` lexicographic order the caller of
`build_sr_clusters` sorts split reads by. -/
def lexLE (a b : SplitRead) : Prop :=
  a.chrom < b.chrom ∨ (a.chrom = b.chrom ∧ a.breakpos ≤ b.breakpos)

instance : DecidableRel lexLE := fun a b =>
  decidable_of_iff
    (a.chrom < b.chrom ∨ (a.chrom = b.chrom ∧ a.breakpos ≤ b.breakpos)) Iff.rfl

/-- All reads of the cluster lie on the cluster's (single) chromosome. -/
def clusterChromOK (c : SplitCluster) : Prop :=
  ∃ ch, c.chrom = some ch ∧ ∀ r ∈ c.reads, r.chrom = ch

/-- Every gap between adjacent breakpoints of the cluster, *except the one
following the cluster's first read*, is at most `d` (the reads are listed
in ascending breakpoint order, so the property is stated on `reads.tail`). -/
def clusterGapsOK (d : ℤ) (c : SplitCluster) : Prop :=
  List.Chain' (fun a b => a.breakpos ≤ b.breakpos ∧
    (b.breakpos : ℤ) - (a.breakpos : ℤ) ≤ d) c.reads.tail

/-- The running invariant of the current cluster during
`build_sr_clusters`: nonempty, single-chromosome, reads sorted by
breakpoint, tail gaps bounded by `d`, and (once the cluster holds at least
two reads, i.e. once `add_splitread` has recomputed it) the running median
is the breakpoint of one of the member reads. -/
def CInv (d : ℤ) (c : SplitCluster) : Prop :=
  c.reads ≠ [] ∧
  (∃ ch, c.chrom = some ch ∧ ∀ r ∈ c.reads, r.chrom = ch) ∧
  c.reads.Pairwise (fun a b => a.breakpos ≤ b.breakpos) ∧
  clusterGapsOK d c ∧
  (2 ≤ c.reads.length → ∃ r ∈ c.reads, c.median = (r.breakpos : ℤ))

/-- Concrete split read for the clustering counterexample: left-clipped,
breakpoint 0, aligned positions spread up to 150 (a spliced/deleted
alignment), so the singleton-cluster running median is 100, far from the
breakpoint. -/
def c4r1 : SplitRead := ⟨"chr1", ⟨27, 30, 30, [0, 100, 150]⟩, 0, true, false⟩

/-- Concrete split read for the clustering counterexample: left-clipped at
160. -/
def c4r2 : SplitRead := ⟨"chr1", ⟨27, 30, 30, [160, 161, 162]⟩, 160, true, false⟩

/-! #### `resolve_duplicates` / `prefer_insertion` (C5) -/

/-- The summarised insertion record fields consulted by
`resolve_duplicates` and `prefer_insertion` (entries of `ins['INFO']`). -/
structure InsRec where
  chrom : String
  be1_breakpos : ℤ
  be2_breakpos : ℤ
  be1_sr_count : ℕ
  be2_sr_count : ℕ
  dr_count : ℕ
deriving DecidableEq, Repr

/-- `prefer_insertion(ins1, ins2)`: three independent early-return tests —
two-end support (of `ins1`) over one-end (of `ins2`), then strictly higher
total split-read count, then strictly higher discordant-read count. -/
def prefer_insertion (i1 i2 : InsRec) : Bool :=
  if i1.be1_breakpos ≠ i1.be2_breakpos ∧ i2.be1_breakpos = i2.be2_breakpos then true
  else if i2.be1_sr_count + i2.be2_sr_count < i1.be1_sr_count + i1.be2_sr_count then true
  else if i2.dr_count < i1.dr_count then true
  else false

/-- `insdict[k] = v` on Python's insertion-ordered dict: update the value in
place when the key is present, append otherwise.  The source keys are the
strings `chrom + ':' + str(breakpos)`; that encoding is injective (the
position suffix after the last colon determines both parts), so the key is
kept as the pair `(chromosome, breakpos)` directly. -/
def odSet (d : List ((String × ℤ) × ℕ)) (k : String × ℤ) (v : ℕ) :
    List ((String × ℤ) × ℕ) :=
  if d.any (fun p => decide (p.1 = k)) then
    d.map (fun p => if p.1 = k then (k, v) else p)
  else d ++ [(k, v)]

/-- Dict lookup (keys are unique by construction of `odSet`). -/
def odGet (d : List ((String × ℤ) × ℕ)) (k : String × ℤ) : Option ℕ :=
  (d.find? (fun p => decide (p.1 = k))).map (·.2)

/-- The `for n, ins in enumerate(insertions)` loop of `resolve_duplicates`.
`none` models the impossible states (a dict value that is not a valid index
into `insertions`). -/
def rdGo (inss : List InsRec) :
    List InsRec → ℕ → List ((String × ℤ) × ℕ) → Option (List ((String × ℤ) × ℕ))
  | [], _, d => some d
  | ins :: rest, n, d =>
    let k1 := (ins.chrom, ins.be1_breakpos)
    let k2 := (ins.chrom, ins.be2_breakpos)
    match odGet d k1 with
    | none => rdGo inss rest (n + 1) (odSet (odSet d k1 n) k2 n)
    | some m =>
      match inss.get? m with
      | none => none
      | some prev =>
        if prefer_insertion ins prev then
          rdGo inss rest (n + 1) (odSet (odSet d k1 n) k2 n)
        else rdGo inss rest (n + 1) d

/-- First-occurrence deduplication of the dict's value list, standing in for
Python's `list(set(insdict.values()))` (whose iteration order is
unspecified; every property proved below is order-insensitive). -/
def dkf (seen : List ℕ) : List ℕ → List ℕ
  | [] => []
  | n :: rest => if n ∈ seen then dkf seen rest else n :: dkf (n :: seen) rest

/-- `resolve_duplicates(insertions)`: key each record under its two
breakend keys, keep one index per key group (later records displacing
earlier ones exactly when `prefer_insertion` says so), and return the
records at the retained indices. -/
def resolve_duplicates (inss : List InsRec) : Option (List InsRec) :=
  match rdGo inss inss 0 [] with
  | none => none
  | some d => some ((dkf [] (d.map (·.2))).filterMap (fun n => inss.get? n))

/-! #### Discordant-read subsampling (C6) -/

/-- `subsample_dict(orig, n, seed=1)`: `assert len(orig) >= n` (`none`
models the assertion failure); an empty dict for `n = 0`; otherwise a dict
of `n` of the keys with their values.  `random.sample` draws `n` distinct
keys pseudo-randomly under the fixed seed; which particular keys are drawn
is irrelevant to the claims below, and the draw is modelled as the first
`n` items. -/
def subsample_dict {α : Type} (orig : List (String × α)) (n : ℕ) :
    Option (List (String × α)) :=
  if orig.length < n then none
  else if n = 0 then some []
  else some (orig.take n)

/-- The subsampling step of `Insertion.fetch_discordant_reads` for one BAM:
when the two discordant buckets together exceed `max_fetch`, each bucket is
cut down to `int((len(bucket) / total) * max_fetch)` entries via
`subsample_dict`.  The Python arithmetic is IEEE double; it is modelled
exactly over `ℚ` (every concrete instance used below is far from the
integer boundaries where the two can differ). -/
def fetch_discordant_subsample {α : Type} (bam_mapped bam_unmapped : List (String × α))
    (max_fetch : ℕ) : Option (List (String × α) × List (String × α)) :=
  let m := bam_mapped.length
  let u := bam_unmapped.length
  if max_fetch < m + u then
    let mapped_sub : ℚ := ((m : ℚ) / ((m : ℚ) + (u : ℚ))) * (max_fetch : ℚ)
    let unmapped_sub : ℚ := ((u : ℚ) / ((m : ℚ) + (u : ℚ))) * (max_fetch : ℚ)
    match subsample_dict bam_mapped ⌊mapped_sub⌋₊,
        subsample_dict bam_unmapped ⌊unmapped_sub⌋₊ with
    | some a, some b => some (a, b)
    | _, _ => none
  else some (bam_mapped, bam_unmapped)

end Tebreak

namespace Tebreak

/-! #### Lemmas about the sort and the `qualtrim` loop -/

theorem mem_insertS {α : Type} (lt : α → α → Bool) (x a : α) :
    ∀ l : List α, a ∈ insertS lt x l ↔ a = x ∨ a ∈ l := by
  intro l
  induction l with
  | nil => simp [insertS]
  | cons y ys ih =>
    by_cases h : lt x y
    · simp [insertS, h]
    · simp [insertS, h, ih]
      tauto

theorem mem_pysort_aux {α : Type} (lt : α → α → Bool) (a : α) :
    ∀ (l acc : List α),
      (a ∈ l.foldl (fun acc y => insertS lt y acc) acc ↔ a ∈ acc ∨ a ∈ l) := by
  intro l
  induction l with
  | nil => simp
  | cons y ys ih =>
    intro acc
    simp only [List.foldl_cons, ih, mem_insertS, List.mem_cons]
    tauto

theorem mem_pysort {α : Type} (lt : α → α → Bool) (a : α) (l : List α) :
    a ∈ pysort lt l ↔ a ∈ l := by
  simp [pysort, mem_pysort_aux]

theorem insertS_of_forall_not {α : Type} (lt : α → α → Bool) (x : α) :
    ∀ l : List α, (∀ y ∈ l, lt x y = false) → insertS lt x l = l ++ [x] := by
  intro l
  induction l with
  | nil => intro; simp [insertS]
  | cons y ys ih =>
    intro h
    have hy : lt x y = false := h y (by simp)
    simp [insertS, hy]
    exact ih (fun z hz => h z (by simp [hz]))

theorem pysort_append_single {α : Type} (lt : α → α → Bool) (x : α) (l : List α) :
    pysort lt (l ++ [x]) = insertS lt x (pysort lt l) := by
  simp [pysort, List.foldl_append]

/-- Insertion sort leaves an already-sorted list unchanged. -/
theorem pysort_sorted_id {α : Type} (lt : α → α → Bool) :
    ∀ l : List α, l.Pairwise (fun a b => lt b a = false) → pysort lt l = l := by
  intro l
  induction l using List.reverseRecOn with
  | nil => simp [pysort]
  | append_singleton l x ih =>
    intro h
    have h1 : l.Pairwise (fun a b => lt b a = false) := h.sublist (by simp)
    have h2 : ∀ y ∈ l, lt x y = false := by
      intro y hy
      have := List.pairwise_append.mp h
      exact this.2.2 y hy x (by simp)
    rw [pysort_append_single, ih h1, insertS_of_forall_not lt x l h2]

/-! #### The `qualtrim` scan loop -/

theorem string_mk_data (s : String) : String.mk s.data = s := rfl

theorem qtGo_initseg (s : String) (q : List ℤ) :
    ∀ k i, ∃ n, qtGo s q k i = ⟨s.data.take n⟩ := by
  intro k
  induction k with
  | zero =>
    intro i
    refine ⟨s.data.length, ?_⟩
    show s = ⟨s.data.take s.data.length⟩
    rw [List.take_length]
  | succ k ih =>
    intro i
    by_cases h : windowSum q i < 20
    · exact ⟨i, by simp [qtGo, h]⟩
    · obtain ⟨n, hn⟩ := ih (i + 1)
      exact ⟨n, by simp [qtGo, h, hn]⟩

theorem qtGo_no_fail (s : String) (q : List ℤ) :
    ∀ k i, (∀ j, j < k → ¬ windowSum q (i + j) < 20) → qtGo s q k i = s := by
  intro k
  induction k with
  | zero => intro i _; rfl
  | succ k ih =>
    intro i h
    have h0 : ¬ windowSum q i < 20 := by
      have := h 0 (by omega)
      simpa using this
    have hrest : ∀ j, j < k → ¬ windowSum q (i + 1 + j) < 20 := by
      intro j hj
      have := h (j + 1) (by omega)
      simpa [Nat.add_assoc, Nat.add_comm 1 j] using this
    simp [qtGo, h0, ih (i + 1) hrest]

theorem qtGo_first_fail (s : String) (q : List ℤ) :
    ∀ k i j0, j0 < k → windowSum q (i + j0) < 20 →
      (∀ j, j < j0 → ¬ windowSum q (i + j) < 20) →
      qtGo s q k i = ⟨s.data.take (i + j0)⟩ := by
  intro k
  induction k with
  | zero => intro i j0 h; omega
  | succ k ih =>
    intro i j0 hj0 hfail hleast
    cases j0 with
    | zero =>
      simp only [Nat.add_zero] at hfail
      simp [qtGo, hfail]
    | succ j =>
      have h0 : ¬ windowSum q i < 20 := by
        have := hleast 0 (by omega)
        simpa using this
      have hfail' : windowSum q (i + 1 + j) < 20 := by
        simpa [Nat.add_assoc, Nat.add_comm 1 j] using hfail
      have hleast' : ∀ j', j' < j → ¬ windowSum q (i + 1 + j') < 20 := by
        intro j' hj'
        have := hleast (j' + 1) (by omega)
        simpa [Nat.add_assoc, Nat.add_comm 1 j'] using this
      have hrec := ih (i + 1) j (by omega) hfail' hleast'
      simp only [qtGo, h0, if_false]
      rw [hrec]
      congr 2
      omega

/-- C10 (amended).  `qualtrim` always returns a character-for-character
initial segment of the read's sequence.  When none of the examined 4-base
windows falls below the quality threshold the full sequence is returned, and
when one does the sequence is truncated at the start of the first failing
window; but the loop `for i in range(0, len(q)-4)` only examines windows
starting at `i` with `i + 4 < len(q)`, so windows reaching the final base
are never examined. -/
theorem qualtrim_spec (seq qual : String) (minqual : ℤ) :
    (∃ n, qualtrim seq qual minqual = ⟨seq.data.take n⟩) ∧
    ((∀ i, i + 4 < (qvals qual minqual).length → ¬ windowSum (qvals qual minqual) i < 20) →
      qualtrim seq qual minqual = seq) ∧
    (∀ i, i + 4 < (qvals qual minqual).length → windowSum (qvals qual minqual) i < 20 →
      (∀ j, j < i → ¬ windowSum (qvals qual minqual) j < 20) →
      qualtrim seq qual minqual = ⟨seq.data.take i⟩) := by
  refine ⟨qtGo_initseg seq _ _ 0, ?_, ?_⟩
  · intro h
    exact qtGo_no_fail seq _ _ 0 (fun j hj => by
      have := h j (by omega)
      simpa using this)
  · intro i hi hfail hleast
    have := qtGo_first_fail seq (qvals qual minqual) ((qvals qual minqual).length - 4) 0 i
      (by omega) (by simpa using hfail) (fun j hj => by simpa using hleast j hj)
    simpa using this

/-- Witness for `qualtrim_spec`: on the concrete read below the first failing
examined window starts at index 5, and the output is the 5-character initial
segment of the sequence. -/
theorem qualtrim_spec_witness :
    qualtrim "ACGTACGTAC" "IIIII!!!!!" 35 = "ACGTA" :=
  (qualtrim_spec "ACGTACGTAC" "IIIII!!!!!" 35).2.2 5 (by decide) (by decide)
    (by decide)

/-- C10, counterexample to the claim as stated: for a 4-base read whose single
sliding 4-base quality window falls below the threshold, the claim says the
sequence is truncated at the start of that (first) failing window, i.e. the
result should be `""`; the code never examines that window (its loop is
`range(0, len(q)-4) = range(0, 0)`) and returns the full sequence. -/
theorem qualtrim_counterexample :
    windowSum (qvals "####" 35) 0 < 20 ∧
    (qvals "####" 35).length = 4 ∧
    qualtrim "ACGT" "####" 35 = "ACGT" ∧
    ("ACGT" : String) ≠ "" := by
  refine ⟨by decide, by decide, by decide, by decide⟩

/-! #### `SplitCluster.consensus` early returns (C3) -/

theorem dedupAdjGo_all_eq (s : String) :
    ∀ l : List String, (∀ t ∈ l, t = s) → dedupAdjGo s l = [] := by
  intro l
  induction l with
  | nil => intro; rfl
  | cons t ts ih =>
    intro h
    have ht : t = s := h t (by simp)
    subst ht
    simp only [dedupAdjGo, if_pos rfl]
    exact ih (fun u hu => h u (by simp [hu]))

/-- C3 (amended).  In `SplitCluster.consensus` each read's sequence is
quality-trimmed and trimmed sequences of 20 bases *or shorter* are discarded
(the source keeps `len(s) > 20`); if zero sequences remain the result is
`('', 0.0)`; if exactly one remains, or all remaining sequences are equal,
that sequence is returned unchanged with score 1.0 — in particular a single
already-converged input sequence *longer than 20 bases* is returned
unchanged with score 1.0. -/
theorem consensus_early_spec (reads : List ConsRead) (r0 : ConsRead)
    (rest : List ConsRead) (hr : reads = r0 :: rest) :
    (trimmedKept reads r0.minqual = [] → consensusEarly reads = some ("", 0)) ∧
    (∀ s rest', trimmedKept reads r0.minqual = s :: rest' → (∀ t ∈ rest', t = s) →
      consensusEarly reads = some (s, 1)) ∧
    (rest = [] → qualtrim r0.seq r0.qual r0.minqual = r0.seq → 20 < r0.seq.length →
      consensusEarly reads = some (r0.seq, 1)) := by
  subst hr
  refine ⟨?_, ?_, ?_⟩
  · intro h
    simp [consensusEarly, h]
  · intro s rest' h hall
    cases rest' with
    | nil => simp [consensusEarly, h]
    | cons t ts =>
      have hd : dedupAdj (s :: t :: ts) = [s] := by
        simp only [dedupAdj]
        rw [dedupAdjGo_all_eq s (t :: ts) hall]

      simp [consensusEarly, h, hd]
  · intro hrest hqt hlen
    subst hrest
    have hkept : trimmedKept [r0] r0.minqual = [r0.seq] := by
      simp [trimmedKept, pysort, insertS, hqt, hlen]
    simp [consensusEarly, hkept]

/-- Witness for `consensus_early_spec`: a single 21-base, high-quality
(hence untrimmed) read is its own consensus with score 1.0. -/
theorem consensus_early_spec_witness :
    consensusEarly [⟨0, 0, "ACGTACGTACGTACGTACGTA", "IIIIIIIIIIIIIIIIIIIII", 35⟩] =
      some ("ACGTACGTACGTACGTACGTA", 1) :=
  (consensus_early_spec _ ⟨0, 0, "ACGTACGTACGTACGTACGTA", "IIIIIIIIIIIIIIIIIIIII", 35⟩
    [] rfl).2.2 rfl (by decide) (by decide)

/-- C3, counterexample to the claim as stated: a single already-converged
input sequence of exactly 20 bases is *not* returned with score 1.0.  The
claim says only sequences *shorter than* 20 bases are discarded, so this
read should survive and be returned unchanged; the source filters with
`len(s) > 20`, discards it, and returns `('', 0.0)`. -/
theorem consensus_counterexample :
    qualtrim "ACGTACGTACGTACGTACGT" "IIIIIIIIIIIIIIIIIIII" 35 =
      "ACGTACGTACGTACGTACGT" ∧
    ("ACGTACGTACGTACGTACGT" : String).length = 20 ∧
    consensusEarly [⟨0, 0, "ACGTACGTACGTACGTACGT", "IIIIIIIIIIIIIIIIIIII", 35⟩] =
      some ("", 0) ∧
    consensusEarly [⟨0, 0, "ACGTACGTACGTACGTACGT", "IIIIIIIIIIIIIIIIIIII", 35⟩] ≠
      some ("ACGTACGTACGTACGTACGT", 1) := by
  refine ⟨by decide, by decide, by decide, by decide⟩

/-! #### `Genome.addpad` (C9) -/

/-- C9.  `addpad` pads an interval by the configured amount, clamping the
result to `[0, chromosome length]`, and fails with an assertion exactly when
the interval's chromosome is absent from the chromosome-length table; for a
chromosome present in the table (and an in-bounds interval with non-negative
padding) the returned coordinates are never below 0 nor beyond the
chromosome length. -/
theorem addpad_spec (chrlen : List (String × ℕ)) (chrom : String) (s e pad : ℤ) :
    (addpad chrlen (chrom, s, e) pad = none ↔ lookupChrom chrlen chrom = none) ∧
    (∀ L : ℕ, lookupChrom chrlen chrom = some L → 0 ≤ s → s ≤ e → e ≤ (L : ℤ) →
      0 ≤ pad →
      addpad chrlen (chrom, s, e) pad =
        some (chrom, max (s - pad) 0, min (e + pad) (L : ℤ)) ∧
      0 ≤ max (s - pad) 0 ∧ max (s - pad) 0 ≤ (L : ℤ) ∧
      0 ≤ min (e + pad) (L : ℤ) ∧ min (e + pad) (L : ℤ) ≤ (L : ℤ)) := by
  constructor
  · cases h : lookupChrom chrlen chrom <;> simp [addpad, h]
  · intro L hL hs hse heL hpad
    have hL0 : (0 : ℤ) ≤ (L : ℤ) := Int.ofNat_nonneg L
    refine ⟨?_, by omega, by omega, by omega, by omega⟩
    simp only [addpad, hL]
    split_ifs <;> simp <;> omega

/-- Witness for `addpad_spec`: padding `("chr1", 10, 20)` by 50 on a
1000-base chromosome clamps the start at 0 and gives `("chr1", 0, 70)`. -/
theorem addpad_spec_witness :
    addpad [("chr1", 1000)] ("chr1", 10, 20) 50 = some ("chr1", 0, 70) := by
  have h := (addpad_spec [("chr1", 1000)] "chr1" 10 20 50).2 1000 (by decide)
    (by decide) (by decide) (by decide) (by decide)
  exact h.1.trans (by norm_num)

/-! #### `Genome.chunk` (C1) -/

/-- C1: evaluation of `Genome.chunk` at inputs contradicting the claim.
On a genome with a single 10-base chromosome and `n = 3` the code emits
three chunks covering bases 0–8 only — the trailing partial chunk holding
`("chr1", 9, 10)` is accumulated in `intervals` but never appended to
`chunks`, so base 9 of the genome is in no returned interval.  With `n = 4`
the code returns five chunks, not four. -/
theorem genome_chunk_bug :
    chunkGenomeFlat [("chr1", 10)] 3 false 0 =
      some [("chr1", 0, 3), ("chr1", 3, 6), ("chr1", 6, 9)] ∧
    (chunkGenomeFlat [("chr1", 10)] 3 false 0).map
      (fun ivs => coversBase ivs "chr1" 9) = some false ∧
    (chunkGenome [("chr1", 10)] 4 false 0).map List.length = some 5 := by
  refine ⟨by decide, by decide, by decide⟩

/-! #### `ReadCluster.add_read` (C8) -/

/-- C8: evaluation of `ReadCluster.add_read` at inputs contradicting the
start/end part of the claim.  Adding a read with aligned positions `[0, 5]`
to an empty cluster yields `start = 5` and `end = 0` — the source assigns
`self.start = max(positions)` and `self.end = min(positions)`, so the
running start and end are inverted (`end < start`) for any cluster spanning
more than one position.  The chromosome part of the claim does hold: adding
a read on another chromosome fails the assertion (`none`). -/
theorem add_read_inverts_start_end :
    add_read emptyReadCluster ⟨"chr1", [0, 5]⟩ =
      some { reads := [⟨"chr1", [0, 5]⟩], start := 5, end_ := 0, median := 2,
             chrom := some "chr1" } ∧
    (add_read emptyReadCluster ⟨"chr1", [0, 5]⟩).map
      (fun c => decide (c.end_ < c.start)) = some true ∧
    add_read { reads := [⟨"chr1", [0, 5]⟩], start := 5, end_ := 0, median := 2,
               chrom := some "chr1" } ⟨"chr2", [7]⟩ = none := by
  refine ⟨by decide, by decide, by decide⟩

/-! #### `Insertion.__init__` (C7) -/

/-- C7.  For every `Insertion` constructed with two breakends, immediately
after construction `be1.breakpos ≤ be2.breakpos` holds (the two breakends
are swapped during construction when given in the opposite order), and a
one-breakend construction leaves the single breakend as `be1` with `be2`
absent. -/
theorem insertion_init_spec (x y : BreakEnd) :
    (∃ a b, mkInsertion (some x) (some y) = ⟨some a, some b⟩ ∧
      a.breakpos ≤ b.breakpos ∧ ((a = x ∧ b = y) ∨ (a = y ∧ b = x))) ∧
    mkInsertion (some x) none = ⟨some x, none⟩ := by
  constructor
  · by_cases h : x.breakpos > y.breakpos
    · exact ⟨y, x, by simp [mkInsertion, h], by omega, Or.inr ⟨rfl, rfl⟩⟩
    · exact ⟨x, y, by simp [mkInsertion, h], by omega, Or.inl ⟨rfl, rfl⟩⟩
  · rfl

/-! #### `build_insertions` (C2) -/

theorem beDictGet_some (breakends : List BreakEnd) (u : ℕ) (b : BreakEnd)
    (h : beDictGet breakends u = some b) : b ∈ breakends ∧ b.uuid = u := by
  unfold beDictGet at h
  constructor
  · have := List.mem_of_find?_eq_some h
    simpa using this
  · have := List.find?_some h
    simpa using this

theorem beDictGet_total (breakends : List BreakEnd) (u : ℕ)
    (h : u ∈ breakends.map BreakEnd.uuid) :
    ∃ b, beDictGet breakends u = some b := by
  obtain ⟨b, hb, hub⟩ := List.mem_map.mp h
  have : (breakends.reverse.find? (fun be => be.uuid == u)).isSome := by
    rw [List.find?_isSome]
    exact ⟨b, by simpa using hb, by simp [hub]⟩
  obtain ⟨r, hr⟩ := Option.isSome_iff_exists.mp this
  exact ⟨r, hr⟩

theorem genPairsInner_mem (score : BreakEnd → BreakEnd → Option ℚ)
    (breakends : List BreakEnd) (maxdist : ℤ) (be1 : BreakEnd) :
    ∀ (us : List ℕ) (checked : List (ℕ × ℕ)) (pairs0 : List (ℕ × ℕ × Option ℚ))
      (t : ℕ × ℕ × Option ℚ),
      t ∈ (genPairsInner score breakends maxdist be1 us checked pairs0).2 →
      t ∈ pairs0 ∨ (t.1 = be1.uuid ∧ t.2.1 ∈ breakends.map BreakEnd.uuid) := by
  intro us
  induction us with
  | nil => intro checked pairs0 t ht; exact Or.inl ht
  | cons u2 rest ih =>
    intro checked pairs0 t ht
    simp only [genPairsInner] at ht
    cases hd : beDictGet breakends u2 with
    | none => rw [hd] at ht; exact Or.inl ht
    | some be2 =>
      rw [hd] at ht
      have hmem := ih _ _ t ht
      rcases hmem with hmem | hmem
      · -- t came through the (possibly extended) pair list
        by_cases hcond : be1.uuid ≠ be2.uuid ∧ be1.direction ≠ be2.direction ∧
            (min be1.uuid be2.uuid, max be1.uuid be2.uuid) ∉ checked
        · rw [if_pos hcond] at hmem
          by_cases hdist : |be1.breakpos - be2.breakpos| ≤ maxdist
          · rw [if_pos hdist] at hmem
            rcases List.mem_append.mp hmem with h | h
            · exact Or.inl h
            · right
              have ht' : t = (be1.uuid, be2.uuid, score be1 be2) := by simpa using h
              subst ht'
              refine ⟨rfl, ?_⟩
              have := (beDictGet_some breakends u2 be2 hd).1
              exact List.mem_map.mpr ⟨be2, this, rfl⟩
          · rw [if_neg hdist] at hmem
            exact Or.inl hmem
        · rw [if_neg hcond] at hmem
          exact Or.inl hmem
      · exact Or.inr hmem

theorem genPairsOuter_mem (score : BreakEnd → BreakEnd → Option ℚ)
    (breakends : List BreakEnd) (maxdist : ℤ) :
    ∀ (l : List BreakEnd) (checked : List (ℕ × ℕ))
      (pairs0 : List (ℕ × ℕ × Option ℚ)) (t : ℕ × ℕ × Option ℚ),
      (∀ b ∈ l, b ∈ breakends) →
      t ∈ genPairsOuter score breakends maxdist l checked pairs0 →
      t ∈ pairs0 ∨
        (t.1 ∈ breakends.map BreakEnd.uuid ∧ t.2.1 ∈ breakends.map BreakEnd.uuid) := by
  intro l
  induction l with
  | nil => intro checked pairs0 t _ ht; exact Or.inl ht
  | cons be1 rest ih =>
    intro checked pairs0 t hl ht
    simp only [genPairsOuter] at ht
    have hrec := ih _ _ t (fun b hb => hl b (by simp [hb])) ht
    rcases hrec with hrec | hrec
    · have := genPairsInner_mem score breakends maxdist be1 _ _ _ t hrec
      rcases this with h | h
      · exact Or.inl h
      · right
        refine ⟨?_, h.2⟩
        rw [h.1]
        exact List.mem_map.mpr ⟨be1, hl be1 (by simp), rfl⟩
    · exact Or.inr hrec

theorem sortedPairScores_mem (score : BreakEnd → BreakEnd → Option ℚ)
    (breakends : List BreakEnd) (maxdist : ℤ) (t : ℕ × ℕ × ℚ)
    (ht : t ∈ sortedPairScores score breakends maxdist) :
    t.1 ∈ breakends.map BreakEnd.uuid ∧ t.2.1 ∈ breakends.map BreakEnd.uuid := by
  unfold sortedPairScores at ht
  rw [mem_pysort] at ht
  obtain ⟨t0, ht0, heq⟩ := List.mem_filterMap.mp ht
  have hmem := genPairsOuter_mem score breakends maxdist breakends [] [] t0
    (fun _ h => h) ht0
  rcases hmem with h | h
  · simp at h
  · cases hsc : t0.2.2 with
    | none => rw [hsc] at heq; simp at heq
    | some q =>
      rw [hsc] at heq
      simp only [Option.some.injEq] at heq
      subst heq
      exact h

theorem greedyPick_used_mono (ps : List (ℕ × ℕ × ℚ)) :
    ∀ (used : List ℕ) (u : ℕ), u ∈ used → u ∈ (greedyPick ps used).2 := by
  induction ps with
  | nil => intro used u hu; exact hu
  | cons p ps ih =>
    intro used u hu
    obtain ⟨u1, u2, q⟩ := p
    simp only [greedyPick]
    by_cases hc : u1 ∉ used ∧ u2 ∉ used
    · rw [if_pos hc]
      exact ih _ u (by simp [hu])
    · rw [if_neg hc]
      exact ih _ u hu

theorem greedyPick_sub (ps : List (ℕ × ℕ × ℚ)) :
    ∀ (used : List ℕ) (pr : ℕ × ℕ), pr ∈ (greedyPick ps used).1 →
      ∃ q, (pr.1, pr.2, q) ∈ ps := by
  induction ps with
  | nil => intro used pr hpr; simp [greedyPick] at hpr
  | cons p ps ih =>
    intro used pr hpr
    obtain ⟨u1, u2, q⟩ := p
    simp only [greedyPick] at hpr
    by_cases hc : u1 ∉ used ∧ u2 ∉ used
    · rw [if_pos hc] at hpr
      rcases List.mem_cons.mp hpr with h | h
      · subst h
        exact ⟨q, by simp⟩
      · obtain ⟨q', hq'⟩ := ih _ pr h
        exact ⟨q', by simp [hq']⟩
    · rw [if_neg hc] at hpr
      obtain ⟨q', hq'⟩ := ih _ pr hpr
      exact ⟨q', by simp [hq']⟩

theorem greedyPick_count (ps : List (ℕ × ℕ × ℚ)) :
    ∀ (used : List ℕ) (u : ℕ),
      (greedyPick ps used).1.countP (fun pr => pr.1 == u || pr.2 == u) =
        if u ∈ (greedyPick ps used).2 ∧ u ∉ used then 1 else 0 := by
  induction ps with
  | nil =>
    intro used u
    simp only [greedyPick, List.countP_nil]
    by_cases h : u ∈ used <;> simp [h]
  | cons p ps ih =>
    intro used u
    obtain ⟨u1, u2, q⟩ := p
    simp only [greedyPick]
    by_cases hc : u1 ∉ used ∧ u2 ∉ used
    · rw [if_pos hc]
      simp only [List.countP_cons]
      rw [ih (used ++ [u1, u2]) u]
      by_cases hu : u1 = u ∨ u2 = u
      · have hmem : u ∈ used ++ [u1, u2] := by
          rcases hu with h | h <;> simp [h.symm]
        have hru : u ∈ (greedyPick ps (used ++ [u1, u2])).2 :=
          greedyPick_used_mono ps _ u hmem
        have hnu : u ∉ used := by
          rcases hu with h | h
          · rw [← h]; exact hc.1
          · rw [← h]; exact hc.2
        have hpu : (u1 == u || u2 == u) = true := by
          rcases hu with h | h <;> simp [h]
        simp [hmem, hru, hnu, hpu]
      · push_neg at hu
        have hpu : (u1 == u || u2 == u) = false := by
          simp [hu.1, hu.2]
        have hiff : u ∈ used ++ [u1, u2] ↔ u ∈ used := by
          simp only [List.mem_append, List.mem_cons, List.mem_singleton,
            List.not_mem_nil, or_false]
          constructor
          · rintro (h | h | h)
            · exact h
            · exact absurd h.symm hu.1
            · exact absurd h.symm hu.2
          · exact fun h => Or.inl h
        rw [hpu]
        simp only [Bool.false_eq_true, if_false, add_zero]
        exact if_congr (and_congr_right fun _ => not_congr hiff) rfl rfl
    · rw [if_neg hc]
      exact ih used u

theorem singlesGo_used_mono (bes : List BreakEnd) :
    ∀ (used : List ℕ) (u : ℕ), u ∈ used → u ∈ (singlesGo bes used).2 := by
  induction bes with
  | nil => intro used u hu; exact hu
  | cons be bes ih =>
    intro used u hu
    simp only [singlesGo]
    by_cases hc : be.uuid ∉ used
    · rw [if_pos hc]
      exact ih _ u (by simp [hu])
    · rw [if_neg hc]
      exact ih _ u hu

theorem singlesGo_total (bes : List BreakEnd) :
    ∀ (used : List ℕ) (be : BreakEnd), be ∈ bes →
      be.uuid ∈ (singlesGo bes used).2 := by
  induction bes with
  | nil => intro used be hbe; simp at hbe
  | cons be' bes ih =>
    intro used be hbe
    simp only [singlesGo]
    by_cases hc : be'.uuid ∉ used
    · rw [if_pos hc]
      rcases List.mem_cons.mp hbe with h | h
      · subst h
        exact singlesGo_used_mono bes _ _ (by simp)
      · exact ih _ be h
    · rw [if_neg hc]
      rcases List.mem_cons.mp hbe with h | h
      · subst h
        push_neg at hc
        exact singlesGo_used_mono bes _ _ hc
      · exact ih _ be h

theorem singlesGo_mem (bes : List BreakEnd) :
    ∀ (used : List ℕ) (ins : Insertion), ins ∈ (singlesGo bes used).1 →
      ∃ b ∈ bes, ins = mkInsertion (some b) none := by
  induction bes with
  | nil => intro used ins h; simp [singlesGo] at h
  | cons be bes ih =>
    intro used ins h
    simp only [singlesGo] at h
    by_cases hc : be.uuid ∉ used
    · rw [if_pos hc] at h
      rcases List.mem_cons.mp h with h | h
      · exact ⟨be, by simp, h⟩
      · obtain ⟨b, hb, he⟩ := ih _ ins h
        exact ⟨b, by simp [hb], he⟩
    · rw [if_neg hc] at h
      obtain ⟨b, hb, he⟩ := ih _ ins h
      exact ⟨b, by simp [hb], he⟩

theorem insHasUuid_single (b : BreakEnd) (u : ℕ) :
    insHasUuid (mkInsertion (some b) none) u = (b.uuid == u) := by
  simp [mkInsertion, insHasUuid]

theorem singlesGo_count (bes : List BreakEnd) :
    ∀ (used : List ℕ) (u : ℕ),
      (singlesGo bes used).1.countP (fun ins => insHasUuid ins u) =
        if u ∈ (singlesGo bes used).2 ∧ u ∉ used then 1 else 0 := by
  induction bes with
  | nil =>
    intro used u
    simp only [singlesGo, List.countP_nil]
    by_cases h : u ∈ used <;> simp [h]
  | cons be bes ih =>
    intro used u
    simp only [singlesGo]
    by_cases hc : be.uuid ∉ used
    · rw [if_pos hc]
      simp only [List.countP_cons]
      rw [ih (used ++ [be.uuid]) u, insHasUuid_single]
      by_cases hu : be.uuid = u
      · subst hu
        have hmem : be.uuid ∈ used ++ [be.uuid] := by simp
        have hru : be.uuid ∈ (singlesGo bes (used ++ [be.uuid])).2 :=
          singlesGo_used_mono bes _ _ hmem
        simp [hmem, hru, hc]
      · have hpu : (be.uuid == u) = false := by simp [hu]
        have hiff : u ∈ used ++ [be.uuid] ↔ u ∈ used := by
          simp only [List.mem_append, List.mem_singleton]
          constructor
          · rintro (h | h)
            · exact h
            · exact absurd h.symm hu
          · exact fun h => Or.inl h
        rw [hpu]
        simp only [Bool.false_eq_true, if_false, add_zero]
        exact if_congr (and_congr_right fun _ => not_congr hiff) rfl rfl
    · rw [if_neg hc]
      exact ih used u

theorem decide_or_beq (P : Prop) [Decidable P] (x y u : ℕ)
    (h : P ↔ (x = u ∨ y = u)) : decide P = (x == u || y == u) := by
  by_cases hp : P
  · rcases h.mp hp with h1 | h1 <;> simp [hp, h1]
  · have h2 : ¬(x = u ∨ y = u) := fun hx => hp (h.mpr hx)
    push_neg at h2
    simp [hp, h2.1, h2.2]

theorem decide_single_beq (P : Prop) [Decidable P] (x u : ℕ)
    (h : P ↔ x = u) : decide P = (x == u) := by
  by_cases hp : P
  · simp [hp, h.mp hp]
  · have h2 : ¬x = u := fun hx => hp (h.mpr hx)
    simp [hp, h2]

theorem insHasUuid_mkInsertion (b1 b2 : BreakEnd) (u : ℕ) :
    insHasUuid (mkInsertion (some b1) (some b2)) u =
      (b1.uuid == u || b2.uuid == u) := by
  simp only [mkInsertion]
  split_ifs <;> simp [insHasUuid, Bool.or_comm]

theorem mkInsertion_val_iff (b1 b2 be : BreakEnd) :
    ((mkInsertion (some b1) (some b2)).be1 = some be ∨
      (mkInsertion (some b1) (some b2)).be2 = some be) ↔ (b1 = be ∨ b2 = be) := by
  simp only [mkInsertion]
  split_ifs <;> simp [or_comm]

theorem countP_congr_mem {α : Type} (l : List α) (p q : α → Bool)
    (h : ∀ a ∈ l, p a = q a) : l.countP p = l.countP q := by
  induction l with
  | nil => rfl
  | cons a l ih =>
    rw [List.countP_cons, List.countP_cons, h a (by simp),
      ih (fun x hx => h x (by simp [hx]))]

theorem pairIns_count (breakends : List BreakEnd) (u : ℕ) :
    ∀ prl : List (ℕ × ℕ),
      (∀ pr ∈ prl, (beDictGet breakends pr.1).isSome ∧
        (beDictGet breakends pr.2).isSome) →
      (prl.filterMap (fun pr =>
        match beDictGet breakends pr.1, beDictGet breakends pr.2 with
        | some b1, some b2 => some (mkInsertion (some b1) (some b2))
        | _, _ => none)).countP (fun ins => insHasUuid ins u) =
      prl.countP (fun pr => pr.1 == u || pr.2 == u) := by
  intro prl
  induction prl with
  | nil => intro _; rfl
  | cons pr prs ih =>
    intro h
    obtain ⟨h1, h2⟩ := h pr (by simp)
    obtain ⟨b1, hb1⟩ := Option.isSome_iff_exists.mp h1
    obtain ⟨b2, hb2⟩ := Option.isSome_iff_exists.mp h2
    have hu1 := (beDictGet_some _ _ _ hb1).2
    have hu2 := (beDictGet_some _ _ _ hb2).2
    simp only [List.filterMap_cons, hb1, hb2]
    rw [List.countP_cons, List.countP_cons]
    rw [ih (fun p hp => h p (by simp [hp]))]
    congr 1
    rw [insHasUuid_mkInsertion, hu1, hu2]

/-- C2.  In `build_insertions`, after sorting the candidate pairs by score
descending and greedily accepting pairs whose breakends are both unused, no
breakend id appears in more than one accepted pair, and every breakend not
used in an accepted pair yields exactly one single-sided insertion: every
input breakend belongs to exactly one returned insertion.  The statement
holds for every scoring function (the source's Gamma-weighted float score is
the `score` parameter), under the guaranteed-by-`uuid4` hypothesis that the
breakend uuids are pairwise distinct. -/
theorem build_insertions_partition (score : BreakEnd → BreakEnd → Option ℚ)
    (breakends : List BreakEnd) (maxdist : ℤ)
    (hnd : (breakends.map BreakEnd.uuid).Nodup) :
    ∀ be ∈ breakends,
      (build_insertions score breakends maxdist).countP
        (fun ins => decide (ins.be1 = some be ∨ ins.be2 = some be)) = 1 := by
  intro be hbe
  have hinj := List.inj_on_of_nodup_map hnd
  have hpairs_ok : ∀ pr ∈ (greedyPick (sortedPairScores score breakends maxdist) []).1,
      (beDictGet breakends pr.1).isSome ∧ (beDictGet breakends pr.2).isSome := by
    intro pr hpr
    obtain ⟨q, hq⟩ := greedyPick_sub _ _ pr hpr
    have hmem := sortedPairScores_mem score breakends maxdist _ hq
    obtain ⟨b1, hb1⟩ := beDictGet_total breakends _ hmem.1
    obtain ⟨b2, hb2⟩ := beDictGet_total breakends _ hmem.2
    exact ⟨by simp [hb1], by simp [hb2]⟩
  have hconv : ∀ ins ∈ build_insertions score breakends maxdist,
      (decide (ins.be1 = some be ∨ ins.be2 = some be)) =
        insHasUuid ins be.uuid := by
    intro ins hins
    simp only [build_insertions] at hins
    rcases List.mem_append.mp hins with hins | hins
    · obtain ⟨pr, hpr, hmk⟩ := List.mem_filterMap.mp hins
      obtain ⟨h1s, h2s⟩ := hpairs_ok pr hpr
      obtain ⟨b1, hb1⟩ := Option.isSome_iff_exists.mp h1s
      obtain ⟨b2, hb2⟩ := Option.isSome_iff_exists.mp h2s
      rw [hb1, hb2] at hmk
      simp only [Option.some.injEq] at hmk
      have hm1 := beDictGet_some _ _ _ hb1
      have hm2 := beDictGet_some _ _ _ hb2
      subst hmk
      have hiff : ((mkInsertion (some b1) (some b2)).be1 = some be ∨
          (mkInsertion (some b1) (some b2)).be2 = some be) ↔
          (b1.uuid = be.uuid ∨ b2.uuid = be.uuid) := by
        rw [mkInsertion_val_iff]
        constructor
        · rintro (h | h)
          · left; rw [h]
          · right; rw [h]
        · rintro (h | h)
          · left; exact hinj hm1.1 hbe h
          · right; exact hinj hm2.1 hbe h
      rw [insHasUuid_mkInsertion]
      exact decide_or_beq _ _ _ _ hiff
    · obtain ⟨b, hb, he⟩ := singlesGo_mem breakends _ ins hins
      subst he
      have hiff : ((mkInsertion (some b) none).be1 = some be ∨
          (mkInsertion (some b) none).be2 = some be) ↔ b.uuid = be.uuid := by
        have hmk : mkInsertion (some b) none = ⟨some b, none⟩ := rfl
        rw [hmk]
        simp only [Option.some.injEq]
        constructor
        · rintro (h | h)
          · rw [h]
          · exact absurd h (by simp)
        · intro h
          left
          exact hinj hb hbe h
      rw [insHasUuid_single]
      exact decide_single_beq _ _ _ hiff
  rw [countP_congr_mem _ _ _ hconv]
  show ((greedyPick (sortedPairScores score breakends maxdist) []).1.filterMap _ ++
      (singlesGo breakends (greedyPick (sortedPairScores score breakends maxdist) []).2).1).countP
      (fun ins => insHasUuid ins be.uuid) = 1
  rw [List.countP_append]
  rw [pairIns_count breakends be.uuid _ hpairs_ok]
  rw [greedyPick_count (sortedPairScores score breakends maxdist) [] be.uuid]
  rw [singlesGo_count breakends _ be.uuid]
  have htotal := singlesGo_total breakends
    (greedyPick (sortedPairScores score breakends maxdist) []).2 be hbe
  by_cases hu : be.uuid ∈ (greedyPick (sortedPairScores score breakends maxdist) []).2
  · simp [hu, htotal]
  · simp [hu, htotal]

/-- Witness for `build_insertions_partition`: two opposite-direction
breakends 5 bases apart with a constant score pair up into one two-sided
insertion; each of the two breakends is used by exactly one insertion. -/
theorem build_insertions_partition_witness :
    (([⟨0, "chr1", 100, "left", 3⟩, ⟨1, "chr1", 105, "right", 3⟩] :
        List BreakEnd).map BreakEnd.uuid).Nodup ∧
    (build_insertions (fun _ _ => some 1)
        [⟨0, "chr1", 100, "left", 3⟩, ⟨1, "chr1", 105, "right", 3⟩] 100).countP
      (fun ins => decide (ins.be1 = some ⟨0, "chr1", 100, "left", 3⟩ ∨
        ins.be2 = some ⟨0, "chr1", 100, "left", 3⟩)) = 1 :=
  ⟨by decide,
    build_insertions_partition (fun _ _ => some 1)
      [⟨0, "chr1", 100, "left", 3⟩, ⟨1, "chr1", 105, "right", 3⟩] 100
      (by decide) ⟨0, "chr1", 100, "left", 3⟩ (by decide)⟩

/-- C5 (amended).  Two insertion records sharing the same
`(chromosome, be1 breakend position, be2 breakend position)` collapse to
exactly one retained record.  The retained one is chosen by
`prefer_insertion`, whose three tests are *independent early returns*, not
an ordered (lexicographic) preference: the later record displaces the
earlier one iff it is two-sided while the earlier is one-sided, *or* it has
a strictly higher total split-read count, *or* it has a strictly higher
discordant-read count — so a record with a lower split-read count but a
higher discordant-read count still displaces the incumbent.  (Between
records sharing both breakend positions the two-sidedness test can never
fire, since either both are two-sided or both are one-sided.) -/
theorem resolve_duplicates_pair (i0 i1 : InsRec) (hc : i0.chrom = i1.chrom)
    (h1 : i0.be1_breakpos = i1.be1_breakpos)
    (h2 : i0.be2_breakpos = i1.be2_breakpos) :
    resolve_duplicates [i0, i1] =
      some [if prefer_insertion i1 i0 then i1 else i0] ∧
    (prefer_insertion i1 i0 = true ↔
      ((i1.be1_breakpos ≠ i1.be2_breakpos ∧ i0.be1_breakpos = i0.be2_breakpos) ∨
        i0.be1_sr_count + i0.be2_sr_count < i1.be1_sr_count + i1.be2_sr_count ∨
        i0.dr_count < i1.dr_count)) := by
  obtain ⟨c0, p1, p2, a0, b0, d0⟩ := i0
  obtain ⟨c1, q1, q2, a1, b1, d1⟩ := i1
  simp only at hc h1 h2
  subst hc h1 h2
  constructor
  · by_cases hp : p1 = p2
    · subst hp
      by_cases hpref : prefer_insertion ⟨c0, p1, p1, a1, b1, d1⟩ ⟨c0, p1, p1, a0, b0, d0⟩ = true
      · simp [resolve_duplicates, rdGo, odGet, odSet, dkf, hpref, List.get?]
      · simp [resolve_duplicates, rdGo, odGet, odSet, dkf, hpref, List.get?]
    · have hp' : p2 ≠ p1 := Ne.symm hp
      by_cases hpref : prefer_insertion ⟨c0, p1, p2, a1, b1, d1⟩ ⟨c0, p1, p2, a0, b0, d0⟩ = true
      · simp [resolve_duplicates, rdGo, odGet, odSet, dkf, hpref, hp, hp', Prod.mk.injEq]
      · simp [resolve_duplicates, rdGo, odGet, odSet, dkf, hpref, hp, hp', Prod.mk.injEq]
  · simp only [prefer_insertion]
    split_ifs with t1 t2 t3 <;> simp_all

/-- Witness for `resolve_duplicates_pair`: of two records at the same
breakend key, the second (higher split-read count) displaces the first. -/
theorem resolve_duplicates_pair_witness :
    resolve_duplicates [⟨"chrX", 5, 9, 1, 1, 2⟩, ⟨"chrX", 5, 9, 3, 1, 0⟩] =
      some [if prefer_insertion ⟨"chrX", 5, 9, 3, 1, 0⟩ ⟨"chrX", 5, 9, 1, 1, 2⟩
            then (⟨"chrX", 5, 9, 3, 1, 0⟩ : InsRec) else ⟨"chrX", 5, 9, 1, 1, 2⟩] ∧
    prefer_insertion ⟨"chrX", 5, 9, 3, 1, 0⟩ ⟨"chrX", 5, 9, 1, 1, 2⟩ = true :=
  ⟨(resolve_duplicates_pair ⟨"chrX", 5, 9, 1, 1, 2⟩ ⟨"chrX", 5, 9, 3, 1, 0⟩
      rfl rfl rfl).1, by decide⟩

/-- C5, counterexample to the claim as stated: the claim's *ordered*
preference (two-sided first, then split-read count, then discordant count
only as a tie-break) would retain the first record below, which has the
strictly higher total split-read count (10 vs 5); `resolve_duplicates`
retains the second record, because `prefer_insertion` returns `True` on its
higher discordant-read count without ever comparing the split-read counts
as a ranked criterion. -/
theorem resolve_duplicates_counterexample :
    resolve_duplicates [⟨"chr1", 100, 200, 6, 4, 0⟩, ⟨"chr1", 100, 200, 2, 3, 7⟩] =
      some [⟨"chr1", 100, 200, 2, 3, 7⟩] ∧
    (2 + 3 : ℕ) < 6 + 4 ∧
    (⟨"chr1", 100, 200, 2, 3, 7⟩ : InsRec) ≠ ⟨"chr1", 100, 200, 6, 4, 0⟩ := by
  refine ⟨by decide, by decide, by decide⟩

/-! #### Discordant subsampling (C6) -/

/-- `int((a/(b+c)) * cap)` over exact rationals is `a * cap / (b + c)` in
natural division. -/
theorem floorShare (a b c cap : ℕ) :
    ⌊((a : ℚ) / ((b : ℚ) + (c : ℚ))) * (cap : ℚ)⌋₊ = a * cap / (b + c) := by
  have hQ : ((a : ℚ) / ((b : ℚ) + (c : ℚ))) * (cap : ℚ) =
      ((a * cap : ℕ) : ℚ) / (((b + c) : ℕ) : ℚ) := by
    push_cast
    rw [div_mul_eq_mul_div]
  rw [hQ, Nat.floor_div_nat, Nat.floor_natCast]

theorem subsample_dict_of_le {α : Type} (l : List (String × α)) (n : ℕ)
    (h : n ≤ l.length) :
    ∃ r, subsample_dict l n = some r ∧ r.length = n := by
  unfold subsample_dict
  rw [if_neg (by omega)]
  by_cases h0 : n = 0
  · subst h0
    simp
  · rw [if_neg h0]
    exact ⟨l.take n, rfl, by rw [List.length_take]; omega⟩

theorem div_split_sum (m u cap : ℕ) (h : cap < m + u) :
    m * cap / (m + u) + u * cap / (m + u) +
      (if m * cap % (m + u) = 0 then 0 else 1) = cap := by
  have hs0 : 0 < m + u := by omega
  have hsum : m * cap + u * cap = cap * (m + u) := by ring
  have hadd : (m * cap + u * cap) / (m + u) =
      m * cap / (m + u) + u * cap / (m + u) +
        if m + u ≤ m * cap % (m + u) + u * cap % (m + u) then 1 else 0 :=
    Nat.add_div hs0
  have hc : (m * cap + u * cap) / (m + u) = cap := by
    rw [hsum]
    exact Nat.mul_div_left cap hs0
  have hmlt : m * cap % (m + u) < m + u := Nat.mod_lt _ hs0
  have hult : u * cap % (m + u) < m + u := Nat.mod_lt _ hs0
  have hz : (m * cap % (m + u) + u * cap % (m + u)) % (m + u) = 0 := by
    rw [← Nat.add_mod, hsum]
    exact Nat.mul_mod_left cap (m + u)
  have hmod : m * cap % (m + u) + u * cap % (m + u) = 0 ∨
      m * cap % (m + u) + u * cap % (m + u) = m + u := by
    rcases Nat.lt_or_ge (m * cap % (m + u) + u * cap % (m + u)) (m + u) with hlt | hge
    · left
      rw [Nat.mod_eq_of_lt hlt] at hz
      exact hz
    · right
      rw [Nat.mod_eq_sub_mod hge, Nat.mod_eq_of_lt (by omega)] at hz
      omega
  have key : ∀ A B r1 r2 : ℕ, r1 < m + u → r2 < m + u →
      (r1 + r2 = 0 ∨ r1 + r2 = m + u) →
      A + B + (if r1 = 0 then 0 else 1) =
        A + B + (if m + u ≤ r1 + r2 then 1 else 0) := by
    intro A B r1 r2 h1 h2 h3
    split_ifs <;> omega
  have hc2 : m * cap / (m + u) + u * cap / (m + u) +
      (if m + u ≤ m * cap % (m + u) + u * cap % (m + u) then 1 else 0) = cap := by
    rw [← hadd]
    exact hc
  exact (key _ _ _ _ hmlt hult hmod).trans hc2

/-- C6 (amended).  When the combined count of discordant reads from one
alignment source exceeds `max_fetch`, the mate-mapped and mate-unmapped
buckets are each subsampled to the *floor* of their proportional share of
the cap, so the total number of retained reads is the cap when the shares
are integral and the cap minus one otherwise — not exactly the cap in
general.  The mapped/unmapped ratio is preserved within this rounding. -/
theorem fetch_discordant_subsample_spec {α : Type}
    (mapped unmapped : List (String × α)) (cap : ℕ)
    (h : cap < mapped.length + unmapped.length) :
    ∃ a b, fetch_discordant_subsample mapped unmapped cap = some (a, b) ∧
      a.length = mapped.length * cap / (mapped.length + unmapped.length) ∧
      b.length = unmapped.length * cap / (mapped.length + unmapped.length) ∧
      a.length + b.length +
        (if mapped.length * cap % (mapped.length + unmapped.length) = 0 then 0
          else 1) = cap := by
  have hcap : cap ≤ mapped.length + unmapped.length := by omega
  have hm : mapped.length * cap / (mapped.length + unmapped.length) ≤ mapped.length := by
    calc mapped.length * cap / (mapped.length + unmapped.length)
        ≤ mapped.length * (mapped.length + unmapped.length) /
            (mapped.length + unmapped.length) :=
          Nat.div_le_div_right (Nat.mul_le_mul le_rfl hcap)
      _ = mapped.length := Nat.mul_div_left _ (by omega)
  have hu : unmapped.length * cap / (mapped.length + unmapped.length) ≤
      unmapped.length := by
    calc unmapped.length * cap / (mapped.length + unmapped.length)
        ≤ unmapped.length * (mapped.length + unmapped.length) /
            (mapped.length + unmapped.length) :=
          Nat.div_le_div_right (Nat.mul_le_mul le_rfl hcap)
      _ = unmapped.length := Nat.mul_div_left _ (by omega)
  obtain ⟨a, ha, haL⟩ := subsample_dict_of_le mapped _ hm
  obtain ⟨b, hb, hbL⟩ := subsample_dict_of_le unmapped _ hu
  refine ⟨a, b, ?_, haL, hbL, ?_⟩
  · simp only [fetch_discordant_subsample, floorShare, if_pos h, ha, hb]
  · rw [haL, hbL]
    exact div_split_sum _ _ _ h

/-- Witness for `fetch_discordant_subsample_spec`: two buckets of two reads
each, cap 2: each bucket keeps `⌊(2/4)·2⌋ = 1` read and the total is
exactly the cap (the shares are integral here). -/
theorem fetch_discordant_subsample_witness :
    ∃ a b : List (String × ℕ),
      fetch_discordant_subsample [("a", 0), ("b", 0)] [("c", 0), ("d", 0)] 2 =
        some (a, b) ∧ a.length = 1 ∧ b.length = 1 := by
  obtain ⟨a, b, h1, h2, h3, h4⟩ := fetch_discordant_subsample_spec
    [("a", (0 : ℕ)), ("b", 0)] [("c", 0), ("d", 0)] 2 (by decide)
  refine ⟨a, b, h1, ?_, ?_⟩
  · simpa using h2
  · simpa using h3

/-- C6, counterexample to the claim as stated: one mate-mapped and two
mate-unmapped discordant reads with cap 2 (count 3 > cap) retain
`⌊(1/3)·2⌋ + ⌊(2/3)·2⌋ = 0 + 1 = 1` read in total — not exactly the cap. -/
theorem fetch_discordant_counterexample :
    fetch_discordant_subsample [("a", (0 : ℕ))] [("b", 0), ("c", 0)] 2 =
      some ([], [("b", 0)]) ∧ (0 + 1 : ℕ) ≠ 2 := by
  refine ⟨?_, by decide⟩
  simp only [fetch_discordant_subsample]
  rw [floorShare, floorShare]
  norm_num [subsample_dict]

/-! #### `build_sr_clusters` (C4) -/

theorem getLast?_mem' {α : Type} : ∀ (l : List α) (a : α),
    l.getLast? = some a → a ∈ l := by
  intro l
  induction l with
  | nil => intro a h; simp at h
  | cons x xs ih =>
    intro a h
    cases xs with
    | nil =>
      simp at h
      subst h
      simp
    | cons y ys =>
      rw [List.getLast?_cons_cons] at h
      exact List.mem_cons_of_mem x (ih a h)

theorem getD_mem' {α : Type} : ∀ (l : List α) (n : ℕ) (dflt : α),
    n < l.length → l.getD n dflt ∈ l := by
  intro l
  induction l with
  | nil => intro n dflt h; simp at h
  | cons x xs ih =>
    intro n dflt h
    cases n with
    | zero => simp [List.getD_cons_zero]
    | succ n =>
      rw [List.getD_cons_succ]
      exact List.mem_cons_of_mem x (ih n dflt (by simpa using h))

theorem pairwise_le_getLast? :
    ∀ (l : List SplitRead), l.Pairwise (fun a b => a.breakpos ≤ b.breakpos) →
      ∀ b, l.getLast? = some b → ∀ r ∈ l, r.breakpos ≤ b.breakpos := by
  intro l
  induction l with
  | nil => intro _ b hb; simp at hb
  | cons x xs ih =>
    intro hp b hb r hr
    cases xs with
    | nil =>
      simp at hb hr
      subst hb
      subst hr
      exact le_refl _
    | cons y ys =>
      rw [List.getLast?_cons_cons] at hb
      rcases List.mem_cons.mp hr with h | h
      · subst h
        exact (List.pairwise_cons.mp hp).1 b (getLast?_mem' _ b hb)
      · exact ih (List.pairwise_cons.mp hp).2 b hb r h

theorem newSplitCluster_basic (sr : SplitRead) (c0 : SplitCluster)
    (h : newSplitCluster sr = some c0) :
    c0.reads = [sr] ∧ c0.chrom = some sr.chrom := by
  unfold newSplitCluster at h
  cases hp : sr.read.positions with
  | nil => rw [hp] at h; simp at h
  | cons p ps =>
    rw [hp] at h
    have := Option.some.inj h
    subst this
    exact ⟨rfl, rfl⟩

theorem CInv_new (d : ℤ) (sr : SplitRead) (c0 : SplitCluster)
    (h : newSplitCluster sr = some c0) : CInv d c0 := by
  obtain ⟨hr, hc⟩ := newSplitCluster_basic sr c0 h
  refine ⟨by rw [hr]; simp, ⟨sr.chrom, hc, ?_⟩, ?_, ?_, ?_⟩
  · intro r hrr
    rw [hr] at hrr
    simp at hrr
    subst hrr
    rfl
  · rw [hr]
    simp
  · unfold clusterGapsOK
    rw [hr]
    simp
  · intro hlen
    rw [hr] at hlen
    simp at hlen

theorem add_splitread_result (d : ℤ) (cur : SplitCluster) (sr : SplitRead)
    (hinv : CInv d cur) (hch : cur.chrom = some sr.chrom)
    (hge : ∀ r ∈ cur.reads, r.breakpos ≤ sr.breakpos)
    (hdist : |cur.median - (sr.breakpos : ℤ)| ≤ d) :
    ∃ c', add_splitread cur sr = some c' ∧
      c'.reads = cur.reads ++ [sr] ∧ c'.chrom = some sr.chrom ∧
      c'.median = (((cur.reads ++ [sr]).getD ((cur.reads ++ [sr]).length / 2)
        sr).breakpos : ℤ) ∧ CInv d c' := by
  obtain ⟨hne, ⟨ch, hcch, hallch⟩, hsorted, hgaps, hmed⟩ := hinv
  have hcheq : ch = sr.chrom := by
    rw [hcch] at hch
    exact Option.some.inj hch
  subst hcheq
  -- the sort is the identity: the appended list is already sorted
  have hpw_ok : (cur.reads ++ [sr]).Pairwise (fun a b => ltSplitRead b a = false) := by
    rw [List.pairwise_append]
    refine ⟨?_, by simp, ?_⟩
    · refine hsorted.imp_of_mem ?_
      intro a b ha hb hab
      have hca := hallch a ha
      have hcb := hallch b hb
      unfold ltSplitRead
      rw [hcb, hca, if_pos rfl]
      simpa using hab
    · intro a ha b hb
      simp only [List.mem_singleton] at hb
      subst hb
      have hca := hallch a ha
      unfold ltSplitRead
      rw [hca, if_pos rfl]
      simpa using hge a ha
  have hps : pysort ltSplitRead (cur.reads ++ [sr]) = cur.reads ++ [sr] :=
    pysort_sorted_id ltSplitRead _ hpw_ok
  have heq : add_splitread cur sr = some ⟨cur.reads ++ [sr],
      (((cur.reads ++ [sr]).headD sr).breakpos : ℤ),
      (((cur.reads ++ [sr]).getLastD sr).breakpos : ℤ),
      (((cur.reads ++ [sr]).getD ((cur.reads ++ [sr]).length / 2) sr).breakpos : ℤ),
      some sr.chrom⟩ := by
    unfold add_splitread
    rw [hch]
    simp only [Option.getD_some, ne_eq, not_true_eq_false, if_false, hps]
  refine ⟨_, heq, rfl, rfl, rfl, ?_⟩
  -- the invariant for the grown cluster
  have hall' : ∀ r ∈ cur.reads ++ [sr], r.chrom = sr.chrom := by
    intro r hr
    rcases List.mem_append.mp hr with h | h
    · exact hallch r h
    · simp at h
      subst h
      rfl
  have hsorted' : (cur.reads ++ [sr]).Pairwise
      (fun a b => a.breakpos ≤ b.breakpos) := by
    rw [List.pairwise_append]
    exact ⟨hsorted, by simp, fun a ha b hb => by
      simp at hb
      subst hb
      exact hge a ha⟩
  refine ⟨by simp, ⟨sr.chrom, rfl, hall'⟩, hsorted', ?_, ?_⟩
  · -- tail gaps
    unfold clusterGapsOK
    cases hcr : cur.reads with
    | nil => exact absurd hcr hne
    | cons x xs =>
      show List.Chain' _ ((x :: (xs ++ [sr])).tail)
      simp only [List.tail_cons]
      rw [List.chain'_append]
      refine ⟨?_, by simp, ?_⟩
      · have : clusterGapsOK d cur := hgaps
        unfold clusterGapsOK at this
        rw [hcr] at this
        exact this
      · intro a ha b hb
        simp only [List.head?_cons, Option.mem_def, Option.some.injEq] at hb
        subst hb
        have hamem : a ∈ cur.reads := by
          rw [hcr]
          exact List.mem_cons_of_mem x (getLast?_mem' xs a ha)
        -- a is the last read of the cluster, which has at least 2 elements
        have hxs_ne : xs ≠ [] := by
          intro hxe
          rw [hxe] at ha
          simp at ha
        have hlen2 : 2 ≤ cur.reads.length := by
          rw [hcr]
          cases xs with
          | nil => exact absurd rfl hxs_ne
          | cons _ _ => simp
        obtain ⟨rm, hrm, hrmed⟩ := hmed hlen2
        have hglx : (x :: xs).getLast? = some a := by
          cases xs with
          | nil => exact absurd rfl hxs_ne
          | cons y ys => rw [List.getLast?_cons_cons]; exact ha
        have hrm_le : rm.breakpos ≤ a.breakpos := by
          have hsx : (x :: xs).Pairwise (fun a b => a.breakpos ≤ b.breakpos) := by
            rw [← hcr]; exact hsorted
          have := pairwise_le_getLast? (x :: xs) hsx a hglx rm (by rw [← hcr]; exact hrm)
          exact this
        have hasr : a.breakpos ≤ sr.breakpos := hge a hamem
        refine ⟨hasr, ?_⟩
        rw [hrmed] at hdist
        have habs := abs_le.mp hdist
        omega
  · -- the new median is a member breakpoint
    intro _
    refine ⟨(cur.reads ++ [sr]).getD ((cur.reads ++ [sr]).length / 2) sr, ?_, rfl⟩
    show (cur.reads ++ [sr]).getD ((cur.reads ++ [sr]).length / 2) sr ∈
      cur.reads ++ [sr]
    apply getD_mem'
    have h1 : 0 < (cur.reads ++ [sr]).length := by simp
    omega

theorem bsrGo_good (d : ℤ) :
    ∀ (rem : List SplitRead) (done : List SplitCluster) (cur : SplitCluster)
      (cs : List SplitCluster),
      rem.Pairwise lexLE →
      (∀ r ∈ cur.reads, ∀ s ∈ rem, lexLE r s) →
      CInv d cur →
      (∀ c ∈ done, clusterChromOK c ∧ clusterGapsOK d c) →
      bsrGo d rem done cur = some cs →
      ∀ c ∈ cs, clusterChromOK c ∧ clusterGapsOK d c := by
  intro rem
  induction rem with
  | nil =>
    intro done cur cs _ _ hinv hdone hcs c hc
    simp only [bsrGo] at hcs
    have := Option.some.inj hcs
    subst this
    rcases List.mem_append.mp hc with h | h
    · exact hdone c h
    · simp at h
      subst h
      exact ⟨hinv.2.1, hinv.2.2.2.1⟩
  | cons sr rest ih =>
    intro done cur cs hpw hrel hinv hdone hcs c hc
    have hsr_rest := (List.pairwise_cons.mp hpw).1
    have hpw' := (List.pairwise_cons.mp hpw).2
    simp only [bsrGo] at hcs
    by_cases hch : cur.chrom ≠ some sr.chrom
    · rw [if_pos hch] at hcs
      cases hnc : newSplitCluster sr with
      | none => rw [hnc] at hcs; simp at hcs
      | some c0 =>
        rw [hnc] at hcs
        have hc0 := newSplitCluster_basic sr c0 hnc
        refine ih (done ++ [cur]) c0 cs hpw' ?_ (CInv_new d sr c0 hnc) ?_ hcs c hc
        · intro r hr s hs
          rw [hc0.1] at hr
          simp at hr
          subst hr
          exact hsr_rest s hs
        · intro c' hc'
          rcases List.mem_append.mp hc' with h | h
          · exact hdone c' h
          · simp at h
            subst h
            exact ⟨hinv.2.1, hinv.2.2.2.1⟩
    · rw [if_neg hch] at hcs
      push_neg at hch
      by_cases hdist : |cur.median - (sr.breakpos : ℤ)| > d
      · rw [if_pos hdist] at hcs
        cases hnc : newSplitCluster sr with
        | none => rw [hnc] at hcs; simp at hcs
        | some c0 =>
          rw [hnc] at hcs
          have hc0 := newSplitCluster_basic sr c0 hnc
          refine ih (done ++ [cur]) c0 cs hpw' ?_ (CInv_new d sr c0 hnc) ?_ hcs c hc
          · intro r hr s hs
            rw [hc0.1] at hr
            simp at hr
            subst hr
            exact hsr_rest s hs
          · intro c' hc'
            rcases List.mem_append.mp hc' with h | h
            · exact hdone c' h
            · simp at h
              subst h
              exact ⟨hinv.2.1, hinv.2.2.2.1⟩
      · rw [if_neg hdist] at hcs
        push_neg at hdist
        have hge : ∀ r ∈ cur.reads, r.breakpos ≤ sr.breakpos := by
          intro r hr
          have hlex := hrel r hr sr (by simp)
          rcases hlex with h | h
          · obtain ⟨ch, hcch, hallch⟩ := hinv.2.1
            have hcheq : ch = sr.chrom := by
              rw [hcch] at hch
              exact Option.some.inj hch
            rw [hallch r hr, hcheq] at h
            exact absurd h (lt_irrefl _)
          · exact h.2
        obtain ⟨c', hadd, hreads', hch', _, hinv'⟩ :=
          add_splitread_result d cur sr hinv hch hge hdist
        rw [hadd] at hcs
        refine ih done c' cs hpw' ?_ hinv' hdone hcs c hc
        intro r hr s hs
        rw [hreads'] at hr
        rcases List.mem_append.mp hr with h | h
        · exact hrel r h s (by simp [hs])
        · simp at h
          subst h
          exact hsr_rest s hs

/-- C4 (amended).  For every input sequence of split reads sorted by
`(chromosome, breakpoint)`, `build_sr_clusters` starts a new cluster exactly
when the chromosome changes or the read's breakpoint is more than the
distance threshold from the current cluster's running median — where the
running median of a one-read cluster is `int(np.median(...))` of that
read's *aligned positions* (set by `ReadCluster.add_read` via the
`SplitCluster(sr)` constructor), not its breakpoint.  Consequently every
output cluster is single-chromosome, and every gap between adjacent
breakpoints inside a cluster *except possibly the gap following the
cluster's first read* is at most the threshold. -/
theorem build_sr_clusters_spec (d : ℤ) (srs : List SplitRead)
    (hsorted : srs.Pairwise lexLE) (cs : List SplitCluster)
    (hcs : build_sr_clusters srs d = some cs) :
    ∀ c ∈ cs, clusterChromOK c ∧ clusterGapsOK d c := by
  cases srs with
  | nil =>
    simp only [build_sr_clusters] at hcs
    have := Option.some.inj hcs
    subst this
    intro c hc
    simp at hc
  | cons sr rest =>
    simp only [build_sr_clusters] at hcs
    cases hnc : newSplitCluster sr with
    | none => rw [hnc] at hcs; simp at hcs
    | some c0 =>
      rw [hnc] at hcs
      refine bsrGo_good d rest [] c0 cs (List.pairwise_cons.mp hsorted).2 ?_
        (CInv_new d sr c0 hnc) (by intro c hc; simp at hc) hcs
      intro r hr s hs
      have hb := newSplitCluster_basic sr c0 hnc
      rw [hb.1] at hr
      simp at hr
      subst hr
      exact (List.pairwise_cons.mp hsorted).1 s hs

/-- Witness for `build_sr_clusters_spec`: two same-chromosome reads at
breakpoints 5 and 50 cluster together (the singleton median is 6, within
100 of 50); the resulting cluster is single-chromosome and its only
non-first gap set is empty, so the gap bound holds. -/
theorem build_sr_clusters_spec_witness :
    clusterChromOK (SplitCluster.mk
      [⟨"chr1", ⟨27, 30, 30, [5, 6, 7]⟩, 5, true, false⟩,
        ⟨"chr1", ⟨27, 30, 30, [50, 51]⟩, 50, true, false⟩]
      5 50 50 (some "chr1")) ∧
    clusterGapsOK 100 (SplitCluster.mk
      [⟨"chr1", ⟨27, 30, 30, [5, 6, 7]⟩, 5, true, false⟩,
        ⟨"chr1", ⟨27, 30, 30, [50, 51]⟩, 50, true, false⟩]
      5 50 50 (some "chr1")) :=
  build_sr_clusters_spec 100
    [⟨"chr1", ⟨27, 30, 30, [5, 6, 7]⟩, 5, true, false⟩,
     ⟨"chr1", ⟨27, 30, 30, [50, 51]⟩, 50, true, false⟩]
    (by
      refine List.Pairwise.cons ?_ (List.pairwise_singleton _ _)
      intro s hs
      simp only [List.mem_singleton] at hs
      subst hs
      exact Or.inr ⟨rfl, by decide⟩) _ (by decide) _ (List.mem_singleton.mpr rfl)

/-- C4, counterexample to the claim as stated: a sorted input whose output
cluster contains an adjacent-breakpoint gap larger than the threshold.  The
first read is left-clipped at breakpoint 0 but aligns (with reference
skips) at positions 0, 100 and 150, so the singleton cluster created from
it carries running median 100 (`ReadCluster.add_read` takes the median of
the *aligned positions*); the second read, at breakpoint 160, is within
100 of that median and joins the cluster, leaving adjacent breakpoints 0
and 160 — a gap of 160 > 100 — inside one cluster. -/
theorem build_sr_clusters_counterexample :
    mkSplitRead "chr1" ⟨27, 30, 30, [0, 100, 150]⟩ = some c4r1 ∧
    mkSplitRead "chr1" ⟨27, 30, 30, [160, 161, 162]⟩ = some c4r2 ∧
    [c4r1, c4r2].Pairwise lexLE ∧
    (build_sr_clusters [c4r1, c4r2] 100).map
      (fun cs => cs.map (fun c => c.reads.map (fun r => r.breakpos))) =
      some [[0, 160]] ∧
    (160 : ℤ) - 0 > 100 :=
  ⟨by decide, by decide,
    by
      refine List.Pairwise.cons ?_ (List.pairwise_singleton _ _)
      intro s hs
      simp only [List.mem_singleton] at hs
      subst hs
      exact Or.inr ⟨rfl, by decide⟩,
    by decide, by decide⟩
